import Mathlib

/-
Verification development for the CampTracker camper-management application.

The development shallowly embeds the program's logic:
 - the spell-check pass over the note field (gui.py: check_spelling,
   match_capitalization) together with the bounded edit-distance dictionary
   lookup it consumes (the symspellpy lookup, modelled from the specification
   since the library is an external collaborator);
 - the record store (logic.py: add_camper, fetch_campers, save_all_campers,
   create_db_backup) over an explicit list-of-rows model of the single
   sqlite table, including the UNIQUE(number) constraint, the
   INSERT OR IGNORE behaviour of the bulk save, and sqlite LIKE patterns;
 - the validation predicate (models.py: UserData.is_valid).

String case operations are modelled at ASCII granularity (the application's
dictionary and data are ASCII); machine floats (the rating REAL column) are
modelled as rationals, which is faithful for the equality/range reasoning
performed by the program.
-/

/-! ## Character and string helpers (ASCII models of the Python str methods) -/

/-- ASCII model of Python str.lower on a character list. -/
def lowerL (l : List Char) : List Char := l.map Char.toLower

/-- ASCII model of Python str.lower. -/
def strLower (s : String) : String := String.mk (lowerL s.data)

/-- ASCII model of Python str.upper. -/
def strUpper (s : String) : String := String.mk (s.data.map Char.toUpper)

/-- ASCII model of Python str.capitalize: first character upper-cased, the
rest lower-cased. -/
def pyCapitalize (s : String) : String :=
  match s.data with
  | [] => ""
  | c :: cs => String.mk (c.toUpper :: lowerL cs)

/-- Cased character (ASCII model: a letter). -/
def casedChar (c : Char) : Bool := c.isAlpha

/-- ASCII model of Python str.isupper: at least one cased character and every
cased character upper-case. -/
def pyIsUpper (s : String) : Bool :=
  s.data.any casedChar && s.data.all (fun c => !casedChar c || c.isUpper)

/-- ASCII model of Python str.islower: at least one cased character and every
cased character lower-case. -/
def pyIsLower (s : String) : Bool :=
  s.data.any casedChar && s.data.all (fun c => !casedChar c || c.isLower)

/-- Helper for pyIsTitle: scans the characters carrying whether the previous
character was cased and whether some cased character was seen. -/
def titleGo (prevCased found : Bool) : List Char → Bool
  | [] => found
  | c :: cs =>
    if c.isUpper then !prevCased && titleGo true true cs
    else if c.isLower then prevCased && titleGo true true cs
    else titleGo false found cs

/-- ASCII model of Python str.istitle: upper-case characters only follow
uncased characters, lower-case characters only follow cased characters, and
there is at least one cased character. -/
def pyIsTitle (s : String) : Bool := titleGo false false s.data

/-- Model of Python str.strip: removes leading and trailing whitespace. -/
def pyStrip (s : String) : String :=
  String.mk
    (((s.data.dropWhile Char.isWhitespace).reverse.dropWhile
      Char.isWhitespace).reverse)

/-- Model of Python str.split() composed with discarding empty tokens:
whitespace-separated tokens of the text. -/
def pySplit (text : String) : List String :=
  (text.split (fun c => c.isWhitespace)).filter (fun w => decide (w ≠ ""))

/-! ## Levenshtein edit distance

The bounded dictionary lookup consumed by check_spelling ranks candidates by
edit distance.  The definition below is structurally recursive (outer
recursion on the first word, inner recursion on the second through levCons),
so it evaluates by kernel reduction. -/

/-- Inner step of the edit distance: given the distance function
f = lev xs from the tail of the first word, computes lev (x :: xs) against
the second word. -/
def levCons (x : Char) (f : List Char → Nat) : List Char → Nat
  | [] => f [] + 1
  | y :: ys =>
    if x = y then f ys
    else 1 + min (f (y :: ys)) (min (levCons x f ys) (f ys))

/-- Levenshtein edit distance between two character lists: minimum number of
single-character insertions, deletions and substitutions. -/
def lev : List Char → List Char → Nat
  | [], ys => ys.length
  | x :: xs, ys => levCons x (lev xs) ys

theorem lev_nil_left (ys : List Char) : lev [] ys = ys.length := rfl

theorem lev_cons_nil (x : Char) (xs : List Char) :
    lev (x :: xs) [] = lev xs [] + 1 := rfl

theorem lev_cons_cons (x y : Char) (xs ys : List Char) :
    lev (x :: xs) (y :: ys) =
      if x = y then lev xs ys
      else 1 + min (lev xs (y :: ys)) (min (lev (x :: xs) ys) (lev xs ys)) := rfl

theorem lev_self (xs : List Char) : lev xs xs = 0 := by
  induction xs with
  | nil => rfl
  | cons x xs ih => rw [lev_cons_cons, if_pos rfl, ih]

theorem lev_eq_zero {xs ys : List Char} (h : lev xs ys = 0) : xs = ys := by
  induction xs generalizing ys with
  | nil =>
    rw [lev_nil_left] at h
    exact (List.length_eq_zero.mp h).symm
  | cons x xs ih =>
    cases ys with
    | nil => rw [lev_cons_nil] at h; omega
    | cons y ys =>
      rw [lev_cons_cons] at h
      by_cases hxy : x = y
      · rw [if_pos hxy] at h
        rw [hxy, ih h]
      · rw [if_neg hxy] at h
        omega

/-! ## Bounded dictionary lookup (Spelling Suggestion Engine)

Modelled from the spec: the fuzzy lookup is performed by the external
symspellpy library (an excluded collaborator); the specification describes
Lookup(word, max_distance) as the ordered sequence of dictionary words within
the given edit distance of the lower-cased input, ordered by ascending edit
distance and then by descending frequency. -/

/-- Candidate correction returned by the lookup: a dictionary term, its edit
distance from the (lower-cased) input, and its dictionary frequency. -/
structure Suggestion where
  term : String
  distance : Nat
  count : Nat
deriving DecidableEq

/-- Candidate order used by the lookup: ascending edit distance, ties broken
by descending frequency. -/
def suggLe (a b : Suggestion) : Bool :=
  decide (a.distance < b.distance ∨ (a.distance = b.distance ∧ b.count ≤ a.count))

/-- Insertion into a list sorted by suggLe. -/
def insertSorted (x : Suggestion) : List Suggestion → List Suggestion
  | [] => [x]
  | y :: ys => if suggLe x y then x :: y :: ys else y :: insertSorted x ys

/-- Insertion sort by suggLe. -/
def sortSugg : List Suggestion → List Suggestion
  | [] => []
  | x :: xs => insertSorted x (sortSugg xs)

/-- Modelled from the spec: symspellpy SymSpell.lookup (external library, not
in the repository).  Lookup(word, max_distance) lower-cases the input and
returns the dictionary entries within the edit-distance bound, ordered by
ascending edit distance and then descending frequency.  The dictionary is the
loaded frequency list: (word, count) pairs. -/
def symLookup (dict : List (String × Nat)) (input : String) (maxDist : Nat) :
    List Suggestion :=
  sortSugg (dict.filterMap (fun e =>
    let d := lev (strLower input).data e.1.data
    if d ≤ maxDist then some ⟨e.1, d, e.2⟩ else none))

theorem suggLe_refl (a : Suggestion) : suggLe a a = true := by
  simp [suggLe]

theorem suggLe_total (a b : Suggestion) (h : ¬ suggLe a b = true) :
    suggLe b a = true := by
  simp [suggLe] at *
  omega

theorem suggLe_trans {a b c : Suggestion} (hab : suggLe a b = true)
    (hbc : suggLe b c = true) : suggLe a c = true := by
  simp [suggLe] at *
  omega

/-- The insertion sort puts a least element (with respect to suggLe) of a
nonempty list at the head, and that head is an element of the list. -/
theorem sortSugg_head_min (l : List Suggestion) (hne : l ≠ []) :
    ∃ x rest, sortSugg l = x :: rest ∧ x ∈ l ∧ ∀ a ∈ l, suggLe x a = true := by
  induction l with
  | nil => exact absurd rfl hne
  | cons a l ih =>
    cases l with
    | nil =>
      refine ⟨a, [], rfl, List.mem_singleton_self a, ?_⟩
      intro b hb
      rw [List.mem_singleton] at hb
      rw [hb]
      exact suggLe_refl a
    | cons a2 l2 =>
      obtain ⟨x, rest, hEq, hxMem, hxMin⟩ := ih (List.cons_ne_nil a2 l2)
      show ∃ y rest2, insertSorted a (sortSugg (a2 :: l2)) = y :: rest2 ∧ _
      rw [hEq]
      by_cases hax : suggLe a x = true
      · refine ⟨a, x :: rest, by simp [insertSorted, hax], List.mem_cons_self a _, ?_⟩
        intro b hb
        rcases List.mem_cons.mp hb with hb | hb
        · rw [hb]; exact suggLe_refl a
        · exact suggLe_trans hax (hxMin b hb)
      · refine ⟨x, insertSorted a rest, by simp [insertSorted, hax],
          List.mem_cons_of_mem a hxMem, ?_⟩
        intro b hb
        rcases List.mem_cons.mp hb with hb | hb
        · rw [hb]; exact suggLe_total a x hax
        · exact hxMin b hb

/-! ## The spell-check pass (gui.py check_spelling)

The pass splits the note text on whitespace, looks each token up lower-cased
at maximum edit distance 2, and flags the token when either no candidate is
returned or the top candidate's term differs from the lower-cased token. -/

/-- Embedding of gui.py check_spelling: returns the tokens of the text that
the pass tags as misspelled.  A token is tagged exactly when the bounded
lookup of its lower-cased form returns no suggestion or a top suggestion
whose term differs from the lower-cased token. -/
def check_spelling (dict : List (String × Nat)) (text : String) : List String :=
  (pySplit text).filter (fun word =>
    match symLookup dict (strLower word) 2 with
    | [] => true
    | s :: _ => decide (s.term ≠ strLower word))

/-! ## Capitalization matching (gui.py match_capitalization) -/

/-- Embedding of gui.py match_capitalization: re-applies the casing pattern
of the original token to the suggestion. -/
def match_capitalization (original suggestion : String) : String :=
  if pyIsUpper original then strUpper suggestion
  else if pyIsTitle original then pyCapitalize suggestion
  else if pyIsLower original then strLower suggestion
  else suggestion

/-! ## The record store (logic.py)

The sqlite table campers(id INTEGER PRIMARY KEY AUTOINCREMENT, name TEXT NOT
NULL, surname TEXT NOT NULL, email TEXT, number TEXT UNIQUE, note TEXT,
rating REAL, status TEXT) is modelled as a list of rows plus the next
auto-increment id.  All values written by the program are non-null, so the
columns are modelled as plain strings and a rational rating. -/

/-- One row of the campers table. -/
structure CamperRow where
  id : Nat
  name : String
  surname : String
  email : String
  number : String
  note : String
  rating : Rat
  status : String
deriving DecidableEq

/-- The store: the rows of the campers table and the next AUTOINCREMENT id. -/
structure DB where
  rows : List CamperRow
  nextId : Nat
deriving DecidableEq

/-- Store-layer failure: sqlite3.IntegrityError raised by a statement that
violates the UNIQUE(number) constraint. -/
inductive DbError where
  | integrityError
deriving DecidableEq

/-! ## UserData (models.py) -/

/-- Characters accepted in a phone number (models.py VALID_PHONE_CHARS). -/
def validPhoneChars : List Char := "0123456789-+ ()".data

/-- Camper data held by models.py UserData after construction (the
constructor strips name, surname, note, email and status; the number is kept
verbatim and the rating is coerced to a float). -/
structure UserData where
  name : String
  surname : String
  number : String
  note : String
  rating : Rat
  email : String
  status : String
deriving DecidableEq

/-- Embedding of the UserData constructor: strips every text field except the
number. -/
def UserData.make (name number surname note : String) (rating : Rat)
    (email status : String) : UserData :=
  ⟨pyStrip name, pyStrip surname, number, pyStrip note, rating, pyStrip email,
    pyStrip status⟩

/-- Embedding of models.py UserData.is_valid: name and surname non-empty,
number drawn from the valid phone characters and at most 21 characters long,
rating within [0, 5]. -/
def UserData.is_valid (u : UserData) : Bool :=
  if u.name = "" then false
  else if u.surname = "" then false
  else if !u.number.data.all (fun c => decide (c ∈ validPhoneChars)) then false
  else if u.number.data.length > 21 then false
  else if u.rating < 0 ∨ u.rating > 5 then false
  else true

/-! ## Insert (logic.py add_camper) -/

/-- Embedding of logic.py add_camper: INSERT INTO campers, which raises
sqlite3.IntegrityError when the number collides with a stored row (the
UNIQUE(number) constraint); on success the row is appended with the next
auto-increment id. -/
def add_camper (db : DB) (u : UserData) : Except DbError DB :=
  if db.rows.any (fun r => decide (r.number = u.number)) then
    .error .integrityError
  else
    .ok ⟨db.rows ++
      [⟨db.nextId, u.name, u.surname, u.email, u.number, u.note, u.rating,
        u.status⟩],
      db.nextId + 1⟩

/-- Store state after an add_camper call: a failed insert commits nothing, so
the state is unchanged. -/
def addCamperState (db : DB) (u : UserData) : DB :=
  match add_camper db u with
  | .ok db2 => db2
  | .error _ => db

/-- Embedding of logic.py handle_submit: builds a UserData from the form
fields, validates it, and inserts only when validation passes.  A failed
insert leaves the store unchanged. -/
def handle_submit (db : DB) (name surname email number note : String)
    (rating : Rat) (status : String) : DB :=
  let u := UserData.make name number surname note rating email status
  if u.is_valid then addCamperState db u else db

/-! ## sqlite LIKE patterns and fetch (logic.py fetch_campers)

fetch_campers filters with WHERE column LIKE ? on the parameter
percent-term-percent.  sqlite LIKE is case-insensitive for ASCII; the percent
sign matches any character sequence and the underscore matches exactly one
character.  The matcher below is structurally recursive (outer recursion on
the pattern, inner recursion on the string through likeGoPct), so it
evaluates by kernel reduction. -/

/-- Helper for the percent wildcard: tries to match the continuation f
against every suffix of the string. -/
def likeGoPct (f : List Char → Bool) : List Char → Bool
  | [] => f []
  | c :: cs => f (c :: cs) || likeGoPct f cs

/-- sqlite LIKE matching of a pattern against a string (ASCII
case-insensitive; percent matches any sequence, underscore any one
character). -/
def likeMatch : List Char → List Char → Bool
  | [], s => s.isEmpty
  | p :: ps, s =>
    if p = '%' then likeGoPct (likeMatch ps) s
    else
      match s with
      | [] => false
      | c :: cs =>
        if p = '_' then likeMatch ps cs
        else (p.toLower == c.toLower) && likeMatch ps cs

/-- Search columns accepted by the GUI (gui.py maps the search dropdown to
one of these four column names). -/
inductive SearchCol where
  | name
  | surname
  | email
  | number
deriving DecidableEq

/-- Value of a search column in a row. -/
def colVal (r : CamperRow) : SearchCol → String
  | .name => r.name
  | .surname => r.surname
  | .email => r.email
  | .number => r.number

/-- Embedding of logic.py fetch_campers: with a non-empty search term and a
column, filters with LIKE on the term wrapped in percent signs; otherwise
(no term, empty term — Python truthiness — or no column) returns every
row. -/
def fetch_campers (db : DB) (searchTerm : Option String)
    (column : Option SearchCol) : List CamperRow :=
  match searchTerm, column with
  | some t, some c =>
    if t = "" then db.rows
    else db.rows.filter (fun r =>
      likeMatch ('%' :: (t.data ++ ['%'])) (colVal r c).data)
  | _, _ => db.rows

/-! ## Bulk reconciliation (logic.py save_all_campers)

Each batch item either carries an id (Python truthiness: present and
non-zero) and is applied as an UPDATE, or is attempted as INSERT OR IGNORE.
A number collision on the insert path is silently skipped by sqlite (OR
IGNORE); a collision produced by an UPDATE raises sqlite3.IntegrityError,
which the function does not catch on that path, so the batch aborts and the
open transaction is rolled back (commit is never reached). -/

/-- One item of a save_all_campers batch (a row of the results grid; the id
is absent for a newly added grid row). -/
structure SaveItem where
  id : Option Nat
  name : String
  surname : String
  email : String
  number : String
  note : String
  rating : Rat
  status : String
deriving DecidableEq

/-- Python truthiness of item.get(id, None): the item is applied as an
update when the id is present and non-zero. -/
def isUpd (it : SaveItem) : Bool := decide (it.id.getD 0 ≠ 0)

/-- The id an update item targets. -/
def updKey (it : SaveItem) : Nat := it.id.getD 0

/-- Row produced by the insert path for an item, at a given id: every field
is stored exactly as supplied (the rating is float-coerced, the identity
here). -/
def mkRow (it : SaveItem) (newId : Nat) : CamperRow :=
  ⟨newId, it.name, it.surname, it.email, it.number, it.note, it.rating,
    it.status⟩

/-- Rows produced by inserting a batch of items at consecutive ids. -/
def mkRows : List SaveItem → Nat → List CamperRow
  | [], _ => []
  | it :: rest, nid => mkRow it nid :: mkRows rest (nid + 1)

/-- Effect of the UPDATE statement of save_all_campers on a row: all mutable
fields of the row with the targeted id are overwritten verbatim. -/
def setFields (r : CamperRow) (it : SaveItem) : CamperRow :=
  ⟨r.id, it.name, it.surname, it.email, it.number, it.note, it.rating,
    it.status⟩

/-- One UPDATE applied to the row list (rows with other ids are
untouched; a missing id updates nothing). -/
def applyItem (rows : List CamperRow) (it : SaveItem) : List CamperRow :=
  rows.map (fun r => if r.id = updKey it then setFields r it else r)

/-- The UPDATE of an item violates the UNIQUE(number) constraint exactly when
it actually updates a row (the id exists) and a different row already holds
the new number. -/
def updConflict (rows : List CamperRow) (it : SaveItem) : Bool :=
  rows.any (fun r => decide (r.id = updKey it)) &&
    rows.any (fun r => decide (r.id ≠ updKey it) && decide (r.number = it.number))

/-- The loop of save_all_campers over the batch: updates abort the batch on a
constraint violation (the exception is not caught on that path); inserts are
INSERT OR IGNORE, so a number collision skips the item and continues. -/
def saveGo : List CamperRow → Nat → List SaveItem →
    Except DbError (List CamperRow × Nat)
  | rows, nid, [] => .ok (rows, nid)
  | rows, nid, it :: rest =>
    if isUpd it then
      if updConflict rows it then .error .integrityError
      else saveGo (applyItem rows it) nid rest
    else
      if rows.any (fun r => decide (r.number = it.number)) then
        saveGo rows nid rest
      else saveGo (rows ++ [mkRow it nid]) (nid + 1) rest

/-- Embedding of logic.py save_all_campers. -/
def save_all_campers (db : DB) (items : List SaveItem) : Except DbError DB :=
  (saveGo db.rows db.nextId items).map (fun p => ⟨p.1, p.2⟩)

/-- Store state after a save_all_campers call: when the batch aborts, commit
is never reached and the implicit transaction rolls back, leaving the store
unchanged. -/
def saveAllState (db : DB) (items : List SaveItem) : DB :=
  match saveGo db.rows db.nextId items with
  | .ok p => ⟨p.1, p.2⟩
  | .error _ => db

/-! ## Backup (logic.py create_db_backup)

The filesystem is modelled as an association list from paths (component
lists) to byte contents; a write prepends, a lookup finds the newest
entry. -/

/-- Filesystem path, as a list of components (os.path.join appends a
component). -/
abbrev FPath := List String

/-- Filesystem model: files as an association list from path to bytes. -/
structure FileSys where
  files : List (FPath × List Nat)
deriving DecidableEq

/-- File content at a path, newest write first. -/
def fsLookup (fs : FileSys) (p : FPath) : Option (List Nat) :=
  (fs.files.find? (fun e => decide (e.1 = p))).map (fun e => e.2)

/-- Backup failure: the FileNotFoundError raised when the store file is
absent. -/
inductive BackupError where
  | fileNotFound
deriving DecidableEq

/-- Path of the store file campers.db inside the application directory
(logic.py get_db_path). -/
def dbFilePath (dir : FPath) : FPath := dir ++ ["campers.db"]

/-- Embedding of logic.py get_backup_dir: the backups directory next to the
store file. -/
def get_backup_dir (dir : FPath) : FPath := dir ++ ["backups"]

/-- Timestamped backup file name (logic.py create_db_backup). -/
def backupName (ts : String) : String := "campers_backup_" ++ ts ++ ".db"

/-- Embedding of logic.py create_db_backup: raises FileNotFoundError when the
store file is absent; otherwise copies the store file byte-for-byte to the
timestamped path inside the backup directory and returns that path.  The
timestamp string is the strftime output, taken as a parameter. -/
def create_db_backup (fs : FileSys) (dir : FPath) (ts : String) :
    Except BackupError (FileSys × FPath) :=
  match fsLookup fs (dbFilePath dir) with
  | none => .error .fileNotFound
  | some content =>
    let bp := get_backup_dir dir ++ [backupName ts]
    .ok (⟨(bp, content) :: fs.files⟩, bp)

/-- Filesystem state after a create_db_backup call: a failed backup creates
no file. -/
def backupState (fs : FileSys) (dir : FPath) (ts : String) : FileSys :=
  match create_db_backup fs dir ts with
  | .ok p => p.1
  | .error _ => fs

/-! ## Properties of LIKE matching -/

theorem likeGoPct_iff (f : List Char → Bool) (s : List Char) :
    likeGoPct f s = true ↔ ∃ a b, s = a ++ b ∧ f b = true := by
  induction s with
  | nil =>
    constructor
    · intro h
      exact ⟨[], [], rfl, h⟩
    · rintro ⟨a, b, hab, hf⟩
      obtain ⟨ha, hb⟩ := List.append_eq_nil.mp hab.symm
      rw [hb] at hf
      exact hf
  | cons c cs ih =>
    simp only [likeGoPct, Bool.or_eq_true, ih]
    constructor
    · rintro (h | ⟨a, b, hab, hf⟩)
      · exact ⟨[], c :: cs, rfl, h⟩
      · exact ⟨c :: a, b, by rw [List.cons_append, hab], hf⟩
    · rintro ⟨a, b, hab, hf⟩
      cases a with
      | nil =>
        left
        rw [List.nil_append] at hab
        rw [hab]
        exact hf
      | cons a1 as =>
        right
        rw [List.cons_append] at hab
        exact ⟨as, b, (List.cons.injEq .. ▸ hab).2, hf⟩

theorem likeMatch_pct_head (ps s : List Char) :
    likeMatch ('%' :: ps) s = likeGoPct (likeMatch ps) s := by
  simp [likeMatch]

theorem like_append_pct (t : List Char) : ∀ b, likeMatch (t ++ ['%']) (t ++ b) = true := by
  induction t with
  | nil =>
    intro b
    rw [List.nil_append, List.nil_append, likeMatch_pct_head, likeGoPct_iff]
    exact ⟨b, [], (List.append_nil b).symm, rfl⟩
  | cons c ts ih =>
    intro b
    by_cases hc : c = '%'
    · subst hc
      rw [List.cons_append, List.cons_append, likeMatch_pct_head, likeGoPct_iff]
      exact ⟨['%'], ts ++ b, rfl, ih b⟩
    · by_cases hu : c = '_'
      · subst hu
        simpa [likeMatch, hc] using ih b
      · simp [likeMatch, hc, hu, ih b]

theorem like_self (t : List Char) : likeMatch ('%' :: (t ++ ['%'])) t = true := by
  rw [likeMatch_pct_head, likeGoPct_iff]
  refine ⟨[], t, rfl, ?_⟩
  have h := like_append_pct t []
  rwa [List.append_nil] at h

theorem like_lit_append (t : List Char) (hwf : ∀ c ∈ t, c ≠ '%' ∧ c ≠ '_') :
    ∀ s, likeMatch (t ++ ['%']) s = true ↔ ∃ b, lowerL s = lowerL t ++ b := by
  induction t with
  | nil =>
    intro s
    constructor
    · intro _
      exact ⟨lowerL s, by simp [lowerL]⟩
    · intro _
      rw [List.nil_append, likeMatch_pct_head, likeGoPct_iff]
      exact ⟨s, [], (List.append_nil s).symm, rfl⟩
  | cons c ts ih =>
    obtain ⟨hc1, hc2⟩ := hwf c (List.mem_cons_self c ts)
    have hwf2 : ∀ d ∈ ts, d ≠ '%' ∧ d ≠ '_' :=
      fun d hd => hwf d (List.mem_cons_of_mem c hd)
    intro s
    cases s with
    | nil =>
      simp [likeMatch, hc1, lowerL]
    | cons d ds =>
      rw [List.cons_append]
      show (if c = '%' then likeGoPct (likeMatch (ts ++ ['%'])) (d :: ds)
        else if c = '_' then likeMatch (ts ++ ['%']) ds
        else (c.toLower == d.toLower) && likeMatch (ts ++ ['%']) ds) = true ↔ _
      rw [if_neg hc1, if_neg hc2, Bool.and_eq_true, beq_iff_eq, ih hwf2 ds]
      constructor
      · rintro ⟨hcd, b, hb⟩
        refine ⟨b, ?_⟩
        simp only [lowerL, List.map_cons, List.cons_append, List.cons.injEq]
        exact ⟨hcd.symm, by simpa [lowerL] using hb⟩
      · rintro ⟨b, hb⟩
        simp only [lowerL, List.map_cons, List.cons_append, List.cons.injEq] at hb
        exact ⟨hb.1.symm, b, by simpa [lowerL] using hb.2⟩

theorem like_pat_iff (t : List Char) (hwf : ∀ c ∈ t, c ≠ '%' ∧ c ≠ '_')
    (s : List Char) :
    likeMatch ('%' :: (t ++ ['%'])) s = true ↔
      ∃ a b, lowerL s = a ++ lowerL t ++ b := by
  rw [likeMatch_pct_head, likeGoPct_iff]
  constructor
  · rintro ⟨a, b, hab, hf⟩
    obtain ⟨b2, hb2⟩ := (like_lit_append t hwf b).mp hf
    refine ⟨lowerL a, b2, ?_⟩
    simp only [lowerL] at hb2 ⊢
    rw [hab, List.map_append, hb2, List.append_assoc]
  · rintro ⟨a, b, hab⟩
    refine ⟨s.take a.length, s.drop a.length, (List.take_append_drop a.length s).symm, ?_⟩
    rw [like_lit_append t hwf]
    refine ⟨b, ?_⟩
    have hd : lowerL (s.drop a.length) = (lowerL s).drop a.length := by
      simp [lowerL, List.map_drop]
    rw [hd, hab, List.append_assoc, List.drop_left]

/-! ## Claim C1: which tokens check_spelling flags -/

/-- C1: for every dictionary and input text, the spell-check pass flags
exactly those whitespace-separated tokens for which the bounded lookup of the
lower-cased token at maximum edit distance 2 either returns no candidate or
returns a top candidate whose term differs from the lower-cased token; every
other token is left unflagged. -/
theorem check_spelling_flags_iff (dict : List (String × Nat)) (text : String)
    (w : String) :
    w ∈ check_spelling dict text ↔
      w ∈ pySplit text ∧
        (symLookup dict (strLower w) 2 = [] ∨
          ∃ s rest, symLookup dict (strLower w) 2 = s :: rest ∧
            s.term ≠ strLower w) := by
  unfold check_spelling
  rw [List.mem_filter]
  refine and_congr_right (fun _ => ?_)
  cases h : symLookup dict (strLower w) 2 with
  | nil => simp [h]
  | cons s rest =>
    simp only [h, decide_eq_true_eq]
    constructor
    · intro hne
      exact Or.inr ⟨s, rest, rfl, hne⟩
    · rintro (habs | ⟨s2, rest2, hEq, hne⟩)
      · exact absurd habs (List.cons_ne_nil s rest)
      · injection hEq with h1 h2
        rw [h1]
        exact hne

/-! ## Claim C2: a dictionary word is its own top candidate -/

/-- C2: for every word present in the loaded frequency dictionary (dictionary
words are stored lower-cased), Lookup of the word at maximum edit distance 2
returns a non-empty candidate list whose first candidate is the word itself
at edit distance zero. -/
theorem lookup_dict_word_top (dict : List (String × Nat)) (w : String)
    (f : Nat) (hmem : (w, f) ∈ dict) (hlow : strLower w = w) :
    ∃ s rest, symLookup dict w 2 = s :: rest ∧ s.term = w ∧ s.distance = 0 := by
  have hc : (⟨w, 0, f⟩ : Suggestion) ∈ dict.filterMap (fun e =>
      let d := lev (strLower w).data e.1.data
      if d ≤ 2 then some (⟨e.1, d, e.2⟩ : Suggestion) else none) := by
    rw [List.mem_filterMap]
    refine ⟨(w, f), hmem, ?_⟩
    simp only [hlow, lev_self]
    rfl
  obtain ⟨x, rest, hEq, hxMem, hxMin⟩ :=
    sortSugg_head_min _ (List.ne_nil_of_mem hc)
  have hmin := hxMin _ hc
  simp only [suggLe, decide_eq_true_eq] at hmin
  have hxd : x.distance = 0 := by omega
  rw [List.mem_filterMap] at hxMem
  obtain ⟨e, _, hex⟩ := hxMem
  simp only [hlow] at hex
  by_cases hle : lev w.data e.1.data ≤ 2
  · rw [if_pos hle] at hex
    have hx := Option.some.inj hex
    have hterm : x.term = e.1 := by rw [← hx]
    have hdist : x.distance = lev w.data e.1.data := by rw [← hx]
    rw [hdist] at hxd
    have hdata : w.data = e.1.data := lev_eq_zero hxd
    have hwterm : x.term = w := by
      rw [hterm]
      exact (congrArg String.mk hdata).symm
    exact ⟨x, rest, hEq, hwterm, by rw [hdist]; exact hxd⟩
  · rw [if_neg hle] at hex
    exact absurd hex (by simp)

/-- Concrete instance of C2: in the one-word dictionary containing ann, the
lookup of ann returns ann itself as the zero-distance top candidate. -/
theorem lookup_dict_word_top_witness :
    ∃ s rest, symLookup [("ann", 10)] "ann" 2 = s :: rest ∧
      s.term = "ann" ∧ s.distance = 0 :=
  lookup_dict_word_top [("ann", 10)] "ann" 10 (by simp) (by decide)

/-! ## Claim C3: capitalization matching -/

/-- C3: the capitalization-matching function returns the suggestion
upper-cased when the original token is all-upper-case, the suggestion
capitalized when the original is title-case (and not all-upper-case, the
first matching branch winning as in the source's elif chain), the suggestion
lower-cased when the original is all-lower-case, and the suggestion unchanged
in every remaining (mixed-case or uncased) case. -/
theorem match_capitalization_cases (o s : String) :
    (pyIsUpper o = true → match_capitalization o s = strUpper s) ∧
    (pyIsUpper o = false → pyIsTitle o = true →
      match_capitalization o s = pyCapitalize s) ∧
    (pyIsUpper o = false → pyIsTitle o = false → pyIsLower o = true →
      match_capitalization o s = strLower s) ∧
    (pyIsUpper o = false → pyIsTitle o = false → pyIsLower o = false →
      match_capitalization o s = s) := by
  refine ⟨?_, ?_, ?_, ?_⟩
  · intro h1
    simp [match_capitalization, h1]
  · intro h1 h2
    simp [match_capitalization, h1, h2]
  · intro h1 h2 h3
    simp [match_capitalization, h1, h2, h3]
  · intro h1 h2 h3
    simp [match_capitalization, h1, h2, h3]

/-- Concrete instances of C3: one token per casing class. -/
theorem match_capitalization_cases_witness :
    match_capitalization "ABC" "hi" = strUpper "hi" ∧
    match_capitalization "Abc" "hI" = pyCapitalize "hI" ∧
    match_capitalization "abc" "HI" = strLower "HI" ∧
    match_capitalization "aBc" "hi" = "hi" :=
  ⟨(match_capitalization_cases "ABC" "hi").1 (by decide),
   (match_capitalization_cases "Abc" "hI").2.1 (by decide) (by decide),
   (match_capitalization_cases "abc" "HI").2.2.1 (by decide) (by decide)
     (by decide),
   (match_capitalization_cases "aBc" "hi").2.2.2 (by decide) (by decide)
     (by decide)⟩

/-! ## Shared concrete sample data for the store claims -/

/-- Sample stored row (the Ann record of the specification's example). -/
def rowA : CamperRow := ⟨1, "Ann", "Lee", "", "555-1234", "", 3.5, "yellow"⟩

/-- Store holding exactly the Ann record. -/
def annDb : DB := ⟨[rowA], 2⟩

/-! ## Claim C8: duplicate-number insert fails recoverably -/

/-- C8: inserting a record whose number equals the number of a stored record
reports the constraint violation as a typed, recoverable failure (the
sqlite3.IntegrityError raised by the INSERT), and the store state is
unchanged by the failed insert. -/
theorem add_camper_duplicate_error (db : DB) (u : UserData)
    (h : ∃ r ∈ db.rows, r.number = u.number) :
    add_camper db u = .error .integrityError ∧ addCamperState db u = db := by
  have hany : db.rows.any (fun r => decide (r.number = u.number)) = true := by
    rw [List.any_eq_true]
    obtain ⟨r, hr, he⟩ := h
    exact ⟨r, hr, by simp [he]⟩
  constructor
  · simp [add_camper, hany]
  · simp [addCamperState, add_camper, hany]

/-- Concrete instance of C8: re-inserting the Ann record's number fails and
leaves the store unchanged. -/
theorem add_camper_duplicate_error_witness :
    add_camper annDb ⟨"Bob", "Ray", "555-1234", "", 0, "", ""⟩ =
      .error .integrityError ∧
    addCamperState annDb ⟨"Bob", "Ray", "555-1234", "", 0, "", ""⟩ = annDb :=
  add_camper_duplicate_error annDb ⟨"Bob", "Ray", "555-1234", "", 0, "", ""⟩
    ⟨rowA, List.mem_singleton_self rowA, rfl⟩

/-! ## Claim C6: insert-then-fetch round trip -/

/-- C6: inserting a record whose number collides with no stored record and
then fetching with the filter (column = number, term = the record's number)
returns a record equal to the inserted one in every field except the
store-assigned id. -/
theorem insert_fetch_roundtrip (db : DB) (u : UserData)
    (h : ∀ r ∈ db.rows, r.number ≠ u.number) :
    ∃ db2, add_camper db u = .ok db2 ∧
      ∃ c ∈ fetch_campers db2 (some u.number) (some SearchCol.number),
        c.name = u.name ∧ c.surname = u.surname ∧ c.email = u.email ∧
        c.number = u.number ∧ c.note = u.note ∧ c.rating = u.rating ∧
        c.status = u.status := by
  have hany : db.rows.any (fun r => decide (r.number = u.number)) = false := by
    rw [← Bool.not_eq_true, List.any_eq_true]
    rintro ⟨r, hr, hd⟩
    rw [decide_eq_true_eq] at hd
    exact h r hr hd
  refine ⟨⟨db.rows ++ [⟨db.nextId, u.name, u.surname, u.email, u.number,
    u.note, u.rating, u.status⟩], db.nextId + 1⟩, by simp [add_camper, hany], ?_⟩
  refine ⟨⟨db.nextId, u.name, u.surname, u.email, u.number, u.note, u.rating,
    u.status⟩, ?_, rfl, rfl, rfl, rfl, rfl, rfl, rfl⟩
  by_cases hn : u.number = ""
  · simp only [fetch_campers, if_pos hn]
    exact List.mem_append_right _ (List.mem_singleton_self _)
  · simp only [fetch_campers, if_neg hn]
    rw [List.mem_filter]
    exact ⟨List.mem_append_right _ (List.mem_singleton_self _),
      like_self u.number.data⟩

/-- Concrete instance of C6: inserting the Ann record into an empty store and
fetching by its number returns it with all fields preserved. -/
theorem insert_fetch_roundtrip_witness :
    ∃ db2,
      add_camper ⟨[], 1⟩ ⟨"Ann", "Lee", "555-1234", "", 3.5, "", "yellow"⟩ =
        .ok db2 ∧
      ∃ c ∈ fetch_campers db2 (some "555-1234") (some SearchCol.number),
        c.name = "Ann" ∧ c.surname = "Lee" ∧ c.email = "" ∧
        c.number = "555-1234" ∧ c.note = "" ∧ c.rating = 3.5 ∧
        c.status = "yellow" :=
  insert_fetch_roundtrip ⟨[], 1⟩
    ⟨"Ann", "Lee", "555-1234", "", 3.5, "", "yellow"⟩
    (by intro r hr; cases hr)

/-! ## Claim C9: backup -/

/-- C9: a backup requested while the store file is absent fails with the
not-found error and creates no file; requested while the store file is
present, it produces the file at the timestamped path inside the backup
directory, byte-identical to the source store file, leaving every other path
(including the source) untouched. -/
theorem create_db_backup_spec (fs : FileSys) (dir : FPath) (ts : String) :
    (fsLookup fs (dbFilePath dir) = none →
      create_db_backup fs dir ts = .error .fileNotFound ∧
      backupState fs dir ts = fs) ∧
    (∀ content, fsLookup fs (dbFilePath dir) = some content →
      ∃ fs2,
        create_db_backup fs dir ts =
          .ok (fs2, get_backup_dir dir ++ [backupName ts]) ∧
        backupState fs dir ts = fs2 ∧
        fsLookup fs2 (get_backup_dir dir ++ [backupName ts]) = some content ∧
        fsLookup fs2 (dbFilePath dir) = some content ∧
        ∀ p, p ≠ get_backup_dir dir ++ [backupName ts] →
          fsLookup fs2 p = fsLookup fs p) := by
  constructor
  · intro h
    constructor
    · simp [create_db_backup, h]
    · simp [backupState, create_db_backup, h]
  · intro content h
    have hne : dbFilePath dir ≠ get_backup_dir dir ++ [backupName ts] := by
      intro habs
      have hlen := congrArg List.length habs
      simp [dbFilePath, get_backup_dir] at hlen
    refine ⟨⟨(get_backup_dir dir ++ [backupName ts], content) :: fs.files⟩,
      by simp [create_db_backup, h], by simp [backupState, create_db_backup, h],
      ?_, ?_, ?_⟩
    · simp [fsLookup, List.find?]
    · have hpres : ∀ p, p ≠ get_backup_dir dir ++ [backupName ts] →
          fsLookup ⟨(get_backup_dir dir ++ [backupName ts], content) ::
            fs.files⟩ p = fsLookup fs p := by
        intro p hp
        simp only [fsLookup, List.find?]
        rw [decide_eq_false (by simpa using fun habs => hp habs.symm)]
      rw [hpres (dbFilePath dir) hne]
      exact h
    · intro p hp
      simp only [fsLookup, List.find?]
      rw [decide_eq_false (by simpa using fun habs => hp habs.symm)]

/-- Concrete instances of C9: the backup fails on an empty filesystem and
copies the store file byte-for-byte when it exists. -/
theorem create_db_backup_spec_witness :
    (create_db_backup ⟨[]⟩ ["app"] "20240101_000000" = .error .fileNotFound ∧
      backupState ⟨[]⟩ ["app"] "20240101_000000" = ⟨[]⟩) ∧
    ∃ fs2,
      create_db_backup ⟨[(["app", "campers.db"], [7, 8, 9])]⟩ ["app"]
          "20240101_000000" =
        .ok (fs2, get_backup_dir ["app"] ++ [backupName "20240101_000000"]) ∧
      backupState ⟨[(["app", "campers.db"], [7, 8, 9])]⟩ ["app"]
          "20240101_000000" = fs2 ∧
      fsLookup fs2 (get_backup_dir ["app"] ++ [backupName "20240101_000000"]) =
        some [7, 8, 9] ∧
      fsLookup fs2 (dbFilePath ["app"]) = some [7, 8, 9] ∧
      ∀ p, p ≠ get_backup_dir ["app"] ++ [backupName "20240101_000000"] →
        fsLookup fs2 p = fsLookup ⟨[(["app", "campers.db"], [7, 8, 9])]⟩ p :=
  ⟨(create_db_backup_spec ⟨[]⟩ ["app"] "20240101_000000").1 rfl,
   (create_db_backup_spec ⟨[(["app", "campers.db"], [7, 8, 9])]⟩ ["app"]
      "20240101_000000").2 [7, 8, 9] (by decide)⟩

/-! ## Claim C7: fetch filtering -/

/-- C7 (amended): fetch with no filter returns all stored records; fetch with
a filter interprets the term as a sqlite LIKE pattern wrapped in percent
signs, so for terms containing no LIKE wildcard (percent or underscore) it
returns exactly the records whose value in the chosen column contains the
term as an ASCII-case-insensitive substring. -/
theorem fetch_filter_spec (db : DB) (t : String) (c : SearchCol)
    (r : CamperRow) (hwf : ∀ ch ∈ t.data, ch ≠ '%' ∧ ch ≠ '_') :
    fetch_campers db none none = db.rows ∧
    (r ∈ fetch_campers db (some t) (some c) ↔
      r ∈ db.rows ∧
        ∃ a b, lowerL (colVal r c).data = a ++ lowerL t.data ++ b) := by
  refine ⟨rfl, ?_⟩
  by_cases ht : t = ""
  · subst ht
    simp only [fetch_campers, if_pos rfl]
    constructor
    · intro hr
      exact ⟨hr, [], lowerL (colVal r c).data, rfl⟩
    · exact fun hr => hr.1
  · simp only [fetch_campers, if_neg ht]
    rw [List.mem_filter]
    exact and_congr_right (fun _ => like_pat_iff t.data hwf (colVal r c).data)

/-- Instances of C7: the specification's Ann example, both as an instance of
the characterization and as the concrete membership it implies. -/
theorem fetch_filter_spec_witness :
    (fetch_campers annDb none none = annDb.rows ∧
      (rowA ∈ fetch_campers annDb (some "an") (some SearchCol.name) ↔
        rowA ∈ annDb.rows ∧
          ∃ a b, lowerL (colVal rowA SearchCol.name).data =
            a ++ lowerL "an".data ++ b)) ∧
    rowA ∈ fetch_campers annDb (some "an") (some SearchCol.name) :=
  ⟨fetch_filter_spec annDb "an" SearchCol.name rowA (by decide),
   (fetch_filter_spec annDb "an" SearchCol.name rowA (by decide)).2.mpr
     ⟨List.mem_singleton_self rowA, [], ['n'], by decide⟩⟩

/-- Row and store witnessing that a LIKE wildcard in the search term breaks
the plain-substring reading of the filter. -/
def wildRow : CamperRow := ⟨7, "abc", "s", "", "1", "", 0, ""⟩

/-- Store holding exactly wildRow. -/
def wildDb : DB := ⟨[wildRow], 8⟩

/-- C7 as literally stated fails: searching the name column for the term
containing an underscore returns the abc record although the term is not a
substring of abc (the underscore acts as a LIKE single-character
wildcard). -/
theorem fetch_substring_counterexample :
    fetch_campers wildDb (some "a_c") (some SearchCol.name) = [wildRow] ∧
    ¬ ∃ a b, lowerL (colVal wildRow SearchCol.name).data =
      a ++ lowerL "a_c".data ++ b := by
  constructor
  · rfl
  · rintro ⟨a, b, h⟩
    have h2 : (['a', 'b', 'c'] : List Char) =
        a ++ (['a', '_', 'c'] : List Char) ++ b := h
    have hl := congrArg List.length h2
    simp only [List.length_append, List.length_cons, List.length_nil] at hl
    have ha : a = [] := List.length_eq_zero.mp (by omega)
    have hb : b = [] := List.length_eq_zero.mp (by omega)
    subst ha
    subst hb
    rw [List.append_nil, List.nil_append] at h2
    exact absurd h2 (by decide)

/-! ## Pure views of the save_all_campers loop -/

/-- Pure interpretation of the insert-only part of the loop: INSERT OR IGNORE
skips an item whose number is already present and otherwise appends the row
at the next id. -/
def insGo : List CamperRow → Nat → List SaveItem → List CamperRow × Nat
  | rows, nid, [] => (rows, nid)
  | rows, nid, it :: rest =>
    if rows.any (fun r => decide (r.number = it.number)) then
      insGo rows nid rest
    else insGo (rows ++ [mkRow it nid]) (nid + 1) rest

/-- Pure interpretation of the update-only part of the loop: each item's
UPDATE applied in order. -/
def applyUpdates : List CamperRow → List SaveItem → List CamperRow
  | rows, [] => rows
  | rows, it :: rest => applyUpdates (applyItem rows it) rest

/-- Last item of the batch targeting a given id. -/
def lastUpdFor (j : Nat) : List SaveItem → Option SaveItem
  | [] => none
  | it :: rest =>
    match lastUpdFor j rest with
    | some x => some x
    | none => if updKey it = j then some it else none

/-- Row-wise view of applyUpdates: a row ends up carrying the fields of the
last batch item targeting its id. -/
def applyLast (items : List SaveItem) (r : CamperRow) : CamperRow :=
  match lastUpdFor r.id items with
  | some x => setFields r x
  | none => r

theorem setFields_id (r : CamperRow) (it : SaveItem) :
    (setFields r it).id = r.id := rfl

theorem setFields_setFields (r : CamperRow) (a b : SaveItem) :
    setFields (setFields r a) b = setFields r b := rfl

theorem applyUpdates_map (items : List SaveItem) :
    ∀ rows : List CamperRow,
      applyUpdates rows items = rows.map (applyLast items) := by
  induction items with
  | nil =>
    intro rows
    have h : rows.map (applyLast []) = rows := by
      rw [show applyLast [] = id from funext (fun r => rfl), List.map_id]
    exact h.symm
  | cons it rest ih =>
    intro rows
    have hstep : applyUpdates rows (it :: rest) =
        applyUpdates (applyItem rows it) rest := rfl
    rw [hstep, ih, applyItem, List.map_map]
    apply List.map_congr_left
    intro r _
    show applyLast rest (if r.id = updKey it then setFields r it else r) =
      applyLast (it :: rest) r
    by_cases hid : r.id = updKey it
    · rw [if_pos hid]
      cases hl : lastUpdFor r.id rest with
      | some x =>
        have hl2 : lastUpdFor (setFields r it).id rest = some x := hl
        simp [applyLast, lastUpdFor, hl, hl2, setFields_setFields]
      | none =>
        have hl2 : lastUpdFor (setFields r it).id rest = none := hl
        simp [applyLast, lastUpdFor, hl, hl2, hid.symm]
    · rw [if_neg hid]
      cases hl : lastUpdFor r.id rest with
      | some x => simp [applyLast, lastUpdFor, hl]
      | none =>
        simp [applyLast, lastUpdFor, hl, if_neg (Ne.symm hid)]

theorem applyLast_applyLast (items : List SaveItem) (r : CamperRow) :
    applyLast items (applyLast items r) = applyLast items r := by
  cases h : lastUpdFor r.id items with
  | none =>
    have h1 : applyLast items r = r := by simp [applyLast, h]
    rw [h1]
    exact h1
  | some x =>
    have h1 : applyLast items r = setFields r x := by simp [applyLast, h]
    rw [h1]
    have h2 : lastUpdFor (setFields r x).id items = some x := h
    simp [applyLast, h2, setFields_setFields]

/-- On an update-only batch, a successful run of the loop computes exactly
the pure sequence of updates and leaves the next id unchanged. -/
theorem saveGo_update_only (items : List SaveItem)
    (hupd : ∀ it ∈ items, isUpd it = true) :
    ∀ rows nid p, saveGo rows nid items = .ok p →
      p = (applyUpdates rows items, nid) := by
  induction items with
  | nil =>
    intro rows nid p h
    simp only [saveGo, Except.ok.injEq] at h
    rw [← h]
    rfl
  | cons it rest ih =>
    intro rows nid p h
    have hu := hupd it (List.mem_cons_self it rest)
    simp only [saveGo, hu, if_true] at h
    cases hcon : updConflict rows it with
    | true =>
      rw [hcon, if_pos rfl] at h
      exact absurd h (by simp)
    | false =>
      rw [hcon] at h
      simp only [Bool.false_eq_true, if_false] at h
      have := ih (fun x hx => hupd x (List.mem_cons_of_mem it hx)) _ _ p h
      rw [this]
      rfl

/-! ## Claim C5: idempotence of update-only reconciliation -/

/-- C5: for every store state and every batch in which every item carries the
id of a stored record, applying the batch twice through save_all_campers
yields exactly the same stored state as applying it once (stored ids are
non-zero, as sqlite AUTOINCREMENT ids are). -/
theorem save_all_update_idempotent (db : DB) (items : List SaveItem)
    (hpos : ∀ r ∈ db.rows, r.id ≠ 0)
    (hid : ∀ it ∈ items, ∃ r ∈ db.rows, it.id = some r.id) :
    saveAllState (saveAllState db items) items = saveAllState db items := by
  have hupd : ∀ it ∈ items, isUpd it = true := by
    intro it hit
    obtain ⟨r, hr, he⟩ := hid it hit
    simp only [isUpd, he, Option.getD_some, decide_eq_true_eq]
    exact hpos r hr
  cases h1 : saveGo db.rows db.nextId items with
  | error e =>
    have hst : saveAllState db items = db := by simp [saveAllState, h1]
    rw [hst]
    exact hst
  | ok p =>
    have hp := saveGo_update_only items hupd db.rows db.nextId p h1
    have hst : saveAllState db items =
        ⟨applyUpdates db.rows items, db.nextId⟩ := by
      simp [saveAllState, h1, hp]
    rw [hst]
    cases h2 : saveGo (applyUpdates db.rows items) db.nextId items with
    | error e => simp [saveAllState, h2]
    | ok q =>
      have hq := saveGo_update_only items hupd _ _ q h2
      simp only [saveAllState, h2, hq]
      have hrows : applyUpdates (applyUpdates db.rows items) items =
          applyUpdates db.rows items := by
        rw [applyUpdates_map, applyUpdates_map items db.rows, List.map_map]
        apply List.map_congr_left
        intro r _
        exact applyLast_applyLast items r
      rw [hrows]

/-- Concrete instance of C5: an update-only batch over the Ann store applied
twice equals it applied once. -/
theorem save_all_update_idempotent_witness :
    saveAllState
        (saveAllState annDb [⟨some 1, "Anne", "Lee", "", "555", "note", 4, "green"⟩])
        [⟨some 1, "Anne", "Lee", "", "555", "note", 4, "green"⟩] =
      saveAllState annDb [⟨some 1, "Anne", "Lee", "", "555", "note", 4, "green"⟩] :=
  save_all_update_idempotent annDb
    [⟨some 1, "Anne", "Lee", "", "555", "note", 4, "green"⟩]
    (by decide)
    (fun it hit => ⟨rowA, List.mem_singleton_self rowA, by
      rw [List.mem_singleton] at hit
      rw [hit]
      rfl⟩)

/-- On an insert-only batch the loop never fails: INSERT OR IGNORE absorbs
every constraint violation, so the run computes the pure insert fold. -/
theorem saveGo_insert_only (items : List SaveItem)
    (hins : ∀ it ∈ items, isUpd it = false) :
    ∀ rows nid, saveGo rows nid items = .ok (insGo rows nid items) := by
  induction items with
  | nil =>
    intro rows nid
    rfl
  | cons it rest ih =>
    intro rows nid
    have hu := hins it (List.mem_cons_self it rest)
    have ihh := ih (fun x hx => hins x (List.mem_cons_of_mem it hx))
    cases hcol : rows.any (fun r => decide (r.number = it.number)) with
    | true =>
      simp only [saveGo, insGo, hu, Bool.false_eq_true, if_false, hcol,
        if_true]
      exact ihh rows nid
    | false =>
      simp only [saveGo, insGo, hu, Bool.false_eq_true, if_false, hcol]
      exact ihh (rows ++ [mkRow it nid]) (nid + 1)

/-- The numbers of the rows produced by inserting a batch are the numbers of
the batch items. -/
theorem mkRows_map_number (A : List SaveItem) :
    ∀ nid, (mkRows A nid).map (fun r => r.number) =
      A.map (fun it => it.number) := by
  induction A with
  | nil => intro nid; rfl
  | cons it A ih =>
    intro nid
    simp only [mkRows, List.map_cons, ih (nid + 1)]
    rfl

/-- Inserting the concatenation of two batches splits at the boundary. -/
theorem mkRows_append (A B : List SaveItem) :
    ∀ nid, mkRows (A ++ B) nid = mkRows A nid ++ mkRows B (nid + A.length) := by
  induction A with
  | nil => intro nid; simp [mkRows]
  | cons it A ih =>
    intro nid
    have e : nid + (it :: A).length = nid + 1 + A.length := by
      simp only [List.length_cons]
      omega
    rw [e]
    show mkRow it nid :: mkRows (A ++ B) (nid + 1) =
      mkRows (it :: A) nid ++ mkRows B (nid + 1 + A.length)
    rw [show mkRows (it :: A) nid = mkRow it nid :: mkRows A (nid + 1) from rfl,
      List.cons_append, ih (nid + 1)]

/-- A prefix of fresh, pairwise-distinct numbers is inserted wholesale: the
pure insert fold appends one row per item and advances the id counter. -/
theorem insGo_append (A : List SaveItem) :
    ∀ rows nid rest, (∀ it ∈ A, ∀ r ∈ rows, r.number ≠ it.number) →
      (A.map (fun it => it.number)).Nodup →
      insGo rows nid (A ++ rest) =
        insGo (rows ++ mkRows A nid) (nid + A.length) rest := by
  induction A with
  | nil =>
    intro rows nid rest h1 h2
    simp [mkRows]
  | cons it A ih =>
    intro rows nid rest h1 h2
    have hfresh : rows.any (fun r => decide (r.number = it.number)) = false := by
      rw [← Bool.not_eq_true, List.any_eq_true]
      rintro ⟨r, hr, hd⟩
      rw [decide_eq_true_eq] at hd
      exact h1 it (List.mem_cons_self it A) r hr hd
    have hnodup := List.nodup_cons.mp h2
    have hside : ∀ x ∈ A, ∀ r ∈ rows ++ [mkRow it nid],
        r.number ≠ x.number := by
      intro x hx r hr
      rcases List.mem_append.mp hr with hr | hr
      · exact h1 x (List.mem_cons_of_mem it hx) r hr
      · rw [List.mem_singleton] at hr
        subst hr
        intro habs
        have habs2 : it.number = x.number := habs
        have hmem2 : x.number ∈ List.map (fun i => i.number) A :=
          List.mem_map_of_mem (fun i => i.number) hx
        rw [← habs2] at hmem2
        exact hnodup.1 hmem2
    have e1 : rows ++ mkRows (it :: A) nid =
        (rows ++ [mkRow it nid]) ++ mkRows A (nid + 1) := by
      rw [List.append_assoc]
      rfl
    have e2 : nid + (it :: A).length = (nid + 1) + A.length := by
      simp only [List.length_cons]
      omega
    rw [e1, e2]
    show (if rows.any (fun r => decide (r.number = it.number)) then
        insGo rows nid (A ++ rest)
      else insGo (rows ++ [mkRow it nid]) (nid + 1) (A ++ rest)) = _
    rw [hfresh]
    simp only [Bool.false_eq_true, if_false]
    exact ih (rows ++ [mkRow it nid]) (nid + 1) rest hside hnodup.2

/-! ## Claim C4: one duplicate among fresh inserts is skipped independently -/

/-- C4: for every store state and every id-less batch consisting of items A
before and B after one duplicate item d, where the items of A and B carry
pairwise-distinct numbers fresh with respect to the store and d's number
duplicates a stored record or an earlier sibling in A, running
save_all_campers persists exactly the rows of A and B (with consecutive
fresh ids), skips d, and the duplicate neither aborts, rolls back nor blocks
the persistence of the other items. -/
theorem save_all_duplicate_skip (db : DB) (A B : List SaveItem) (d : SaveItem)
    (hids : ∀ it ∈ A ++ d :: B, it.id = none)
    (hnodup : ((A ++ B).map (fun it => it.number)).Nodup)
    (hfresh : ∀ it ∈ A ++ B, ∀ r ∈ db.rows, r.number ≠ it.number)
    (hdup : (∃ r ∈ db.rows, r.number = d.number) ∨
      d.number ∈ A.map (fun it => it.number)) :
    saveAllState db (A ++ d :: B) =
      ⟨db.rows ++ mkRows (A ++ B) db.nextId,
        db.nextId + (A ++ B).length⟩ := by
  have hins : ∀ it ∈ A ++ d :: B, isUpd it = false := by
    intro it hit
    simp [isUpd, hids it hit]
  have hAfresh : ∀ it ∈ A, ∀ r ∈ db.rows, r.number ≠ it.number :=
    fun it hit => hfresh it (List.mem_append_left B hit)
  have hBfresh : ∀ it ∈ B, ∀ r ∈ db.rows, r.number ≠ it.number :=
    fun it hit => hfresh it (List.mem_append_right A hit)
  rw [List.map_append] at hnodup
  obtain ⟨hAnodup, hBnodup, hdisj⟩ := List.nodup_append.mp hnodup
  have hgo := saveGo_insert_only (A ++ d :: B) hins db.rows db.nextId
  have hsplit := insGo_append A db.rows db.nextId (d :: B) hAfresh hAnodup
  have hdcol : (db.rows ++ mkRows A db.nextId).any
      (fun r => decide (r.number = d.number)) = true := by
    rw [List.any_eq_true]
    rcases hdup with ⟨r, hr, he⟩ | hmem
    · exact ⟨r, List.mem_append_left _ hr, by simp [he]⟩
    · rw [← mkRows_map_number A db.nextId] at hmem
      obtain ⟨r, hr, he⟩ := List.mem_map.mp hmem
      exact ⟨r, List.mem_append_right _ hr, by simp [he]⟩
  have hskip : insGo (db.rows ++ mkRows A db.nextId) (db.nextId + A.length)
      (d :: B) = insGo (db.rows ++ mkRows A db.nextId)
      (db.nextId + A.length) B := by
    simp only [insGo, hdcol, if_true]
  have hBall : insGo (db.rows ++ mkRows A db.nextId) (db.nextId + A.length)
      B = (db.rows ++ mkRows A db.nextId ++
        mkRows B (db.nextId + A.length),
        db.nextId + A.length + B.length) := by
    have hBfresh2 : ∀ it ∈ B, ∀ r ∈ db.rows ++ mkRows A db.nextId,
        r.number ≠ it.number := by
      intro it hit r hr
      rcases List.mem_append.mp hr with hr | hr
      · exact hBfresh it hit r hr
      · intro habs
        have hrn : r.number ∈ A.map (fun i => i.number) := by
          rw [← mkRows_map_number A db.nextId]
          exact List.mem_map_of_mem (fun x => x.number) hr
        have hin : r.number ∈ B.map (fun i => i.number) :=
          habs ▸ List.mem_map_of_mem (fun i => i.number) hit
        exact hdisj hrn hin
    have := insGo_append B (db.rows ++ mkRows A db.nextId)
      (db.nextId + A.length) [] hBfresh2 hBnodup
    rw [List.append_nil] at this
    rw [this]
    rfl
  have hresult : insGo db.rows db.nextId (A ++ d :: B) =
      (db.rows ++ mkRows (A ++ B) db.nextId,
        db.nextId + (A ++ B).length) := by
    rw [hsplit, hskip, hBall, mkRows_append A B db.nextId,
      List.append_assoc, List.length_append]
    have : db.nextId + A.length + B.length =
        db.nextId + (A.length + B.length) := by omega
    rw [this]
  simp [saveAllState, hgo, hresult]

/-- Fresh batch item X of the C4 instance. -/
def itemX : SaveItem := ⟨none, "X", "S", "", "111", "", 0, ""⟩

/-- Fresh batch item Y of the C4 instance. -/
def itemY : SaveItem := ⟨none, "Y", "S", "", "222", "", 0, ""⟩

/-- Duplicate batch item of the C4 instance: same number as itemX. -/
def itemD : SaveItem := ⟨none, "D", "S", "", "111", "", 0, ""⟩

/-- Concrete instance of C4: two fresh inserts around a duplicate of the
first; both fresh items are persisted at consecutive ids, the duplicate is
skipped. -/
theorem save_all_duplicate_skip_witness :
    saveAllState ⟨[], 1⟩ ([itemX] ++ itemD :: [itemY]) =
      ⟨[] ++ mkRows ([itemX] ++ [itemY]) 1,
        1 + ([itemX] ++ [itemY]).length⟩ :=
  save_all_duplicate_skip ⟨[], 1⟩ [itemX] [itemY] itemD
    (by decide)
    (by decide)
    (by intro it hit r hr; cases hr)
    (Or.inr (by decide))

/-! ## Claim C10: save_all_campers performs no field validation -/

/-- C10: save_all_campers applies no field validation.  On the insert path
(no id, fresh number) the supplied name, surname, email, number, note,
rating and status are persisted exactly as given in the appended row; on the
update path (non-zero id, no number conflict) the targeted row's fields are
overwritten exactly as given.  No hypothesis about UserData.is_valid
appears: validation is applied only by handle_submit, which persists nothing
when validation fails. -/
theorem save_all_no_validation (db : DB) (it : SaveItem) :
    (it.id = none → (∀ r ∈ db.rows, r.number ≠ it.number) →
      saveAllState db [it] =
        ⟨db.rows ++ [mkRow it db.nextId], db.nextId + 1⟩) ∧
    (∀ i, it.id = some i → i ≠ 0 → updConflict db.rows it = false →
      saveAllState db [it] = ⟨applyItem db.rows it, db.nextId⟩) ∧
    (∀ name surname email number note rating status,
      (UserData.make name number surname note rating email status).is_valid =
          false →
        handle_submit db name surname email number note rating status = db) := by
  refine ⟨?_, ?_, ?_⟩
  · intro hid hfr
    have hu : isUpd it = false := by simp [isUpd, hid]
    have hcol : db.rows.any (fun r => decide (r.number = it.number)) = false := by
      rw [← Bool.not_eq_true, List.any_eq_true]
      rintro ⟨r, hr, hd⟩
      rw [decide_eq_true_eq] at hd
      exact hfr r hr hd
    simp [saveAllState, saveGo, hu, hcol]
  · intro i hid hi hcon
    have hu : isUpd it = true := by simp [isUpd, hid, hi]
    simp [saveAllState, saveGo, hu, hcon]
  · intro name surname email number note rating status hval
    simp [handle_submit, hval]

/-- Batch item failing every form-validation rule (empty name and surname,
invalid over-long number, out-of-range rating). -/
def badItem : SaveItem := ⟨none, "", "", "", "x234567890123456789012345", "n", 9, "?"⟩

/-- Concrete instance of C10: the invalid item is persisted verbatim by
save_all_campers although the same fields fail UserData validation, and
handle_submit persists nothing for them. -/
theorem save_all_no_validation_witness :
    (UserData.make "" "x234567890123456789012345" "" "n" 9 "" "?").is_valid =
        false ∧
    saveAllState ⟨[], 1⟩ [badItem] = ⟨[mkRow badItem 1], 2⟩ ∧
    handle_submit ⟨[], 1⟩ "" "" "" "x234567890123456789012345" "n" 9 "?" =
      ⟨[], 1⟩ :=
  ⟨by decide,
   (save_all_no_validation ⟨[], 1⟩ badItem).1 rfl (by intro r hr; cases hr),
   (save_all_no_validation ⟨[], 1⟩ badItem).2.2 "" "" "" "x234567890123456789012345"
     "n" 9 "?" (by decide)⟩
